import Mathlib

/-!
Verification of the cytoprocess pipeline (shallow embedding).

This file embeds, in Lean, the pure cores of the cytoprocess commands:

* `commands/extract_meta.py`   — the nested-tree path resolver `_get_json_item`
  and the `run` update discipline for the cumulative metadata artifact;
* `commands/extract_cyto.py`   — the tagged-record resolver `_get_parameter_value`;
* `commands/summarise_pulses.py` — the pulse normaliser `_normalise_pulse`;
* `commands/compute_features.py` — the largest-component selection of
  `_segment_particle` / `_fast_particle_area`;
* `commands/prepare.py`        — the per-sample merge `_merge_sample_data`, the
  column governance of `_prepare_ecotaxa_tsv`, the preflight validation
  `_ensure_sample_data`, and the skip-if-exists discipline of `run`.

JSON documents are modelled by the inductive `Json`; Python `None` (JSON null)
is `Json.null`.  Numbers are carried as their source literal (the converter
parses them with `ijson` into `Decimal`, whose `str()` is the literal).
Strings are handled at the character-list level so that every definition is
executable by the kernel.
-/

namespace Cytoprocess

/-- A parsed JSON value as produced by `ijson` / `json.load` in the pipeline:
`dict`s keep their key order, numbers keep their literal text (`Decimal`). -/
inductive Json where
  | null : Json
  | bool (b : Bool) : Json
  | num (s : String) : Json
  | str (s : String) : Json
  | arr (xs : List Json) : Json
  | obj (kvs : List (String × Json)) : Json

/-! ### Python string primitives

The source manipulates paths with `str.split`, `str.endswith`, `str.startswith`
and slicing.  These are embedded over `String.data` (the character list) so
that they compute by kernel reduction. -/

/-- Python `s.split(sep)` over the character list: split at every occurrence
of `sep`, keeping empty fields (`"".split('.') == ['']`). -/
def splitCharList (sep : Char) : List Char → List (List Char)
  | [] => [[]]
  | c :: cs =>
    if c = sep then [] :: splitCharList sep cs
    else
      match splitCharList sep cs with
      | l :: ls => (c :: l) :: ls
      | [] => [[c]]

/-- Python `s.split(sep)` (no maxsplit). -/
def pySplit (sep : Char) (s : String) : List String :=
  (splitCharList sep s.data).map String.mk

/-- Python `s.split(sep, 1)`: split at the first occurrence of `sep` only. -/
def splitCharListOnce (sep : Char) : List Char → List Char × Option (List Char)
  | [] => ([], none)
  | c :: cs =>
    if c = sep then ([], some cs)
    else
      let r := splitCharListOnce sep cs
      (c :: r.1, r.2)

/-- Python `s.split(sep, 1)` as a list of one or two strings. -/
def pySplit1 (sep : Char) (s : String) : List String :=
  match splitCharListOnce sep s.data with
  | (l, none) => [String.mk l]
  | (l, some r) => [String.mk l, String.mk r]

/-- Python `s.endswith(suffix)`. -/
def pyEndsWith (s suffix : String) : Bool := suffix.data.isSuffixOf s.data

/-- Python `s.startswith(prefix)`. -/
def pyStartsWith (s pre : String) : Bool := pre.data.isPrefixOf s.data

/-- Python `s[:-2]` (drop the last two characters; shorter strings give `""`). -/
def pyDropRight2 (s : String) : String := String.mk s.data.dropLast.dropLast

/-! ### Python stringification

`_get_json_item` space-joins `str(item)` over list elements.  `str` on values
parsed by `ijson` gives: the text of strings, `True`/`False`, `None`, the
literal of `Decimal` numbers, and `repr`-style rendering of nested
lists/dicts. -/

mutual

/-- Python `repr` of a parsed JSON value (used inside `str` of lists/dicts). -/
def pyRepr : Json → String
  | .null => "None"
  | .bool true => "True"
  | .bool false => "False"
  | .num s => "Decimal(\x27" ++ s ++ "\x27)"
  | .str s => "\x27" ++ s ++ "\x27"
  | .arr xs => "[" ++ String.intercalate ", " (pyReprList xs) ++ "]"
  | .obj kvs => "\x7b" ++ String.intercalate ", " (pyReprKVs kvs) ++ "\x7d"

/-- `repr` of each element of a list. -/
def pyReprList : List Json → List String
  | [] => []
  | j :: js => pyRepr j :: pyReprList js

/-- `repr` of each `key: value` entry of a dict. -/
def pyReprKVs : List (String × Json) → List String
  | [] => []
  | (k, v) :: kvs => ("\x27" ++ k ++ "\x27: " ++ pyRepr v) :: pyReprKVs kvs

end

/-- Python `str` of a parsed JSON value. -/
def pyStr : Json → String
  | .null => "None"
  | .bool true => "True"
  | .bool false => "False"
  | .num s => s
  | .str s => s
  | .arr xs => pyRepr (.arr xs)
  | .obj kvs => pyRepr (.obj kvs)

/-- Python dict lookup `d[k]` / `k in d` combined: the value stored under the
first matching key, if any. -/
def lookupKV : List (String × Json) → String → Option Json
  | [], _ => none
  | (k, v) :: kvs, key => if k = key then some v else lookupKV kvs key

/-- Python `d.get(k)` as observed by a caller: a stored JSON null is the same
Python object `None` as a missing key. -/
def dictGet (kvs : List (String × Json)) (key : String) : Option Json :=
  match lookupKV kvs key with
  | some .null => none
  | r => r

/-! ### `extract_meta._get_json_item` — the nested-tree path resolver

The Python function iterates over `path_parts = path.split('.')` with a
mutable `current`, and on a `key[]` segment whose value is a list either
space-joins the stringified elements (no remaining path) or recursively
resolves `'.'.join(path_parts[path_parts.index(part) + 1:])` against every
element and space-joins the non-`None` stringified results.  Note two source
quirks kept here exactly:

* when `current[key]` is **not** a list, no branch of the `if` returns, so the
  loop falls through to the next segment with `current` unchanged;
* the remaining path is computed from `path_parts.index(part)`, the **first**
  occurrence of the segment string in the whole path.

The recursive call `_get_json_item(item, remaining_path)` re-splits the joined
remainder; segments produced by `split('.')` never contain a dot, and joining
then re-splitting such segments is the identity, so the embedding passes the
segment list `remaining` directly.  The loop is `loopGo` (structural on the remaining
segments); the recursion between loop and list fan-out is paid for with a fuel
argument in `goItem` — each fan-out resolves a strictly shorter path, so
`parts.length + 1` fuel always suffices (`goItem_fuel_eq`) and the `0` branch
is unreachable. -/

/-- One pass of the `for part in path_parts` loop of `_get_json_item`.
`fanout` is the recursive call used for list elements, `full` the complete
segment list of the path (used for `path_parts.index`), the last two arguments
are `current` and the segments still to process. -/
def loopGo (fanout : Json → List String → Option Json) (full : List String) :
    Json → List String → Option Json
  | .null, _ => none
  | cur, [] => some cur
  | cur, part :: rest =>
    if pyEndsWith part "[]" then
      match cur with
      | .obj kvs =>
        match lookupKV kvs (pyDropRight2 part) with
        | some (.arr items) =>
          let remaining := full.drop (full.indexOf part + 1)
          let values :=
            if String.intercalate "." remaining = "" then
              -- no more path components: collect the stringified list items
              items.map pyStr
            else
              -- recurse into every list item with the remaining path
              items.filterMap fun item => (fanout item remaining).map pyStr
          if values = [] then none else some (.str (String.intercalate " " values))
        | some _ => loopGo fanout full cur rest
        | none => none
      | _ => none
    else
      match cur with
      | .obj kvs =>
        match lookupKV kvs part with
        | some v => loopGo fanout full v rest
        | none => none
      | _ => none

/-- `_get_json_item` on an already-split path, with fuel bounding the depth of
list fan-outs.  Fuel `0` is never reached when started with
`parts.length + 1` (each fan-out strictly shortens the path). -/
def goItem : Nat → Json → List String → Option Json
  | 0, _, _ => none
  | n + 1, jsonData, parts => loopGo (fun item rem => goItem n item rem) parts jsonData parts

/-- `_get_json_item` on a pre-split segment list. -/
def getJsonItemParts (jsonData : Json) (parts : List String) : Option Json :=
  goItem (parts.length + 1) jsonData parts

/-- `_get_json_item(json_data, path)` of `commands/extract_meta.py`. -/
def getJsonItem (jsonData : Json) (path : String) : Option Json :=
  getJsonItemParts jsonData (pySplit '.' path)

/-! ### `extract_cyto._get_parameter_value` — the tagged-record resolver -/

/-- The scan of `_get_parameter_value`: find the first dict whose
`description` equals the discriminator and return its `key` field (Python
`param_dict.get(key)`); non-dict entries are skipped; no match gives `None`. -/
def findParam : List Json → String → String → Option Json
  | [], _, _ => none
  | .obj kvs :: rest, description, key =>
    -- Python `param_dict.get('description') == description` compares with a
    -- string, so only a stored string equal to the discriminator matches.
    match dictGet kvs "description" with
    | some (.str d) =>
      if d = description then dictGet kvs key else findParam rest description key
    | _ => findParam rest description key
  | _ :: rest, description, key => findParam rest description key

/-- `_get_parameter_value(parameters, path)` of `commands/extract_cyto.py`:
`path.split('.', 1)` must give exactly two parts, else `None`. -/
def getParameterValue (parameters : List Json) (path : String) : Option Json :=
  match pySplit1 '.' path with
  | [description, key] => findParam parameters description key
  | _ => none

/-! ### `summarise_pulses._normalise_pulse`

`np.array` coordinates are modelled by rationals; `arr.min()` / `arr.max()`
are folds over the elements.  `np.min` raises on an empty array, so the
empty case below is unreachable for the non-empty waveforms the pipeline
feeds it (the claims quantify over non-empty inputs only). -/

/-- `arr.min()` of a non-empty array `v :: vs`. -/
def pulseMin (v : ℚ) (vs : List ℚ) : ℚ := vs.foldl min v

/-- `arr.max()` of a non-empty array `v :: vs`. -/
def pulseMax (v : ℚ) (vs : List ℚ) : ℚ := vs.foldl max v

/-- `_normalise_pulse(values)` of `commands/summarise_pulses.py`:
`(arr - min) / (max - min)`, or `np.zeros_like(arr)` when `max == min`. -/
def normalisePulse : List ℚ → List ℚ
  | [] => []
  | v :: vs =>
    let mn := pulseMin v vs
    let mx := pulseMax v vs
    if mx = mn then List.replicate (v :: vs).length 0
    else (v :: vs).map fun x => (x - mn) / (mx - mn)

/-! ### `compute_features._segment_particle` — largest-component selection

The image-processing steps (Canny, filling, closing) are library calls on
rasters; the claim is about what happens **after** `measure.label`.  A labeled
image is a flat list of pixel labels (`0` = background).  `measure.label`
numbers components `1..max` and `measure.regionprops` yields them in ascending
label order; `_fast_particle_area(r)` counts the pixels of `r.label` inside
the region's bounding box, which is every pixel of that label.  Python
`max(regions, key=...)` keeps the first element attaining the maximum. -/

/-- `labeled.max()`: the largest label in the image. -/
def maxLabel (labeled : List Nat) : Nat := labeled.foldl max 0

/-- `_fast_particle_area` for label `l`: `np.sum(label_image == l)`. -/
def labelArea (labeled : List Nat) (l : Nat) : Nat := labeled.countP (· = l)

/-- The labels of `measure.regionprops(labeled)`, in ascending label order. -/
def regionLabels (labeled : List Nat) : List Nat := List.range' 1 (maxLabel labeled)

/-- Python `max(iterable, key=f)` over `x :: xs`: replaces the current best
only on a strictly greater key, so the first maximal element wins. -/
def pyMaxBy (f : Nat → Nat) (x : Nat) (xs : List Nat) : Nat :=
  xs.foldl (fun best r => if f r > f best then r else best) x

/-- The label selected by `_segment_particle` after labeling: `None` when no
component exists, else the label of `max(regions, key=_fast_particle_area)`. -/
def segmentSelect (labeled : List Nat) : Option Nat :=
  if maxLabel labeled = 0 then none
  else
    match regionLabels labeled with
    | [] => none
    | r :: rs => some (pyMaxBy (labelArea labeled) r rs)

/-- The particle mask `labeled == largest_region.label` returned by
`_segment_particle`. -/
def segmentMask (labeled : List Nat) : Option (List Bool) :=
  (segmentSelect labeled).map fun sel => labeled.map (· = sel)

/-! ### `prepare._prepare_ecotaxa_tsv` — column governance

Lines 314–345: move `*_id` columns first, partition by prefix, truncate each
group to the EcoTaxa limits with one warning per truncated group, and
concatenate `img/object/process/acq/sample`.  Warnings are modelled by the
name of the truncated group. -/

/-- The column governance of `_prepare_ecotaxa_tsv`: the ordered, truncated
column list together with the truncation warnings it logs. -/
def prepareColumns (cols : List String) : List String × List String :=
  let idCols := cols.filter fun c => pyEndsWith c "_id"
  let otherCols := cols.filter fun c => !pyEndsWith c "_id"
  let cols2 := idCols ++ otherCols
  let imgCols := cols2.filter fun c => pyStartsWith c "img_"
  let objectCols := cols2.filter fun c => pyStartsWith c "object_"
  let processCols := cols2.filter fun c => pyStartsWith c "process_"
  let acqCols := cols2.filter fun c => pyStartsWith c "acq_"
  let sampleCols := cols2.filter fun c => pyStartsWith c "sample_"
  let objectKept := if objectCols.length > 501 then objectCols.take 501 else objectCols
  let wObject := if objectCols.length > 501 then ["object"] else []
  let processKept := if processCols.length > 31 then processCols.take 31 else processCols
  let wProcess := if processCols.length > 31 then ["process"] else []
  let acqKept := if acqCols.length > 31 then acqCols.take 31 else acqCols
  let wAcq := if acqCols.length > 31 then ["acq"] else []
  let sampleKept := if sampleCols.length > 61 then sampleCols.take 61 else sampleCols
  let wSample := if sampleCols.length > 61 then ["sample"] else []
  (imgCols ++ objectKept ++ processKept ++ acqKept ++ sampleKept,
   wObject ++ wProcess ++ wAcq ++ wSample)

/-! ### `prepare._merge_sample_data` — the per-sample left-join chain

A dataframe is a key column (or pair of key columns) plus positional value
columns; a missing value (`NaN`) is `none`.  `pandas.merge(..., how='left')`
keeps every left row: matching right rows multiply it, no match pads the right
columns with nulls. -/

/-- A dataframe keyed by `K`: value column names and rows of key plus one
optional cell per value column. -/
structure Table (K : Type) (V : Type) where
  cols : List String
  rows : List (K × List (Option V))

/-- `left.merge(right, on=<keys of K2>, how='left')`, where `proj` projects the
left key onto the right key (identity for object-level merges on
`['sample_id','object_id']`, first component for sample-level merges on
`['sample_id']`). -/
def leftMergeOn {K K2 V : Type} [DecidableEq K2] (proj : K → K2)
    (left : Table K V) (right : Table K2 V) : Table K V where
  cols := left.cols ++ right.cols
  rows := left.rows.flatMap fun lr =>
    match right.rows.filter (fun rr => rr.1 = proj lr.1) with
    | [] => [(lr.1, lr.2 ++ List.replicate right.cols.length none)]
    | m :: ms => (m :: ms).map fun rr => (lr.1, lr.2 ++ rr.2)

/-- `df['process_id'] = df['acq_id']`: append a `process_id` column whose
cells copy the `acq_id` column. -/
def addProcessId {K V : Type} (t : Table K V) : Table K V where
  cols := t.cols ++ ["process_id"]
  rows := t.rows.map fun r => (r.1, r.2 ++ [(r.2.get? (t.cols.indexOf "acq_id")).join])

/-- The merge chain of `_merge_sample_data` (lines 278–284): cytometric
features left-joined with image features and pulses on
`(sample_id, object_id)`, then with the custom sample metadata and the
instrument metadata on `sample_id`, then `process_id := acq_id`.  (The
`__pixel_size__` scalar extraction is orthogonal to the table shape and not
modelled.) -/
def mergeSampleData {V : Type} (cyto imageFeatures pulses : Table (String × String) V)
    (sampleMeta instrumentMeta : Table String V) : Table (String × String) V :=
  let df := leftMergeOn id cyto imageFeatures
  let df := leftMergeOn id df pulses
  let df := leftMergeOn Prod.fst df sampleMeta
  let df := leftMergeOn Prod.fst df instrumentMeta
  addProcessId df

/-! ### `prepare._ensure_sample_data` and `prepare.run` — preflight and skips -/

/-- The required per-sample artifacts checked by `_ensure_sample_data`, in the
order the source checks them. -/
inductive Artifact where
  | instrumentMeta : Artifact
  | cytometricFeatures : Artifact
  | pulses : Artifact
  | imagesDir : Artifact
  | imageFeatures : Artifact
deriving DecidableEq

/-- Which files and directories exist in the project when `prepare` runs. -/
structure PrepareEnv where
  /-- `work/sample_metadata_from_instrument.parquet` exists. -/
  instrumentMetaFileExists : Bool
  /-- sample ids present as rows of the instrument metadata parquet. -/
  instrumentMetaSamples : List String
  /-- samples whose `work/<id>_cytometric_features.parquet` exists. -/
  cytoFeatureSamples : List String
  /-- samples whose `work/<id>_pulses.parquet` exists. -/
  pulseSamples : List String
  /-- samples whose `images/<id>/` directory exists. -/
  imageDirSamples : List String
  /-- samples whose `work/<id>_image_features.parquet` exists. -/
  imageFeatureSamples : List String
  /-- samples whose `ecotaxa/ecotaxa_<id>.tsv` already exists. -/
  tsvExistsSamples : List String
  /-- samples whose `ecotaxa/ecotaxa_<id>.zip` already exists. -/
  zipExistsSamples : List String

/-- Is artifact `a` missing for sample `s`? (the five `if not ...exists()`
conditions of `_ensure_sample_data`). -/
def artifactMissing (env : PrepareEnv) (s : String) : Artifact → Bool
  | .instrumentMeta => ¬ s ∈ env.instrumentMetaSamples
  | .cytometricFeatures => ¬ s ∈ env.cytoFeatureSamples
  | .pulses => ¬ s ∈ env.pulseSamples
  | .imagesDir => ¬ s ∈ env.imageDirSamples
  | .imageFeatures => ¬ s ∈ env.imageFeatureSamples

/-- The warnings `_ensure_sample_data` logs: for every requested sample, one
entry per missing artifact, in source order. -/
def missingArtifacts (env : PrepareEnv) (samples : List String) : List (String × Artifact) :=
  samples.flatMap fun s =>
    ([Artifact.instrumentMeta, .cytometricFeatures, .pulses, .imagesDir,
      .imageFeatures].filter (artifactMissing env s)).map fun a => (s, a)

/-- The skip condition of `prepare.run` (lines 444–445): an existing TSV
blocks regeneration in `--only-tsv` mode, an existing ZIP otherwise, unless
`--force` is given. -/
def prepareSkip (tsvExists zipExists onlyTsv force : Bool) : Bool :=
  (tsvExists && onlyTsv && !force) || (zipExists && !onlyTsv && !force)

/-- Outcome of a `prepare` invocation. -/
inductive PrepareOutcome where
  /-- `work/sample_metadata_from_instrument.parquet` itself is missing:
  abort before the per-sample checks. -/
  | errorMissingMetaFile : PrepareOutcome
  /-- `_ensure_sample_data` raised after warning about each missing artifact:
  nothing is written. -/
  | errorMissingInputs (missing : List (String × Artifact)) : PrepareOutcome
  /-- validation passed; the samples whose output was (re)written. -/
  | written (samples : List String) : PrepareOutcome
deriving DecidableEq

/-- `prepare.run`: preflight validation, then per-sample skip-or-write.
Writing happens only after the whole batch validates. -/
def prepareRun (env : PrepareEnv) (samples : List String) (onlyTsv force : Bool) :
    PrepareOutcome :=
  if ¬ env.instrumentMetaFileExists then .errorMissingMetaFile
  else if missingArtifacts env samples ≠ [] then
    .errorMissingInputs (missingArtifacts env samples)
  else
    .written (samples.filter fun s =>
      ¬ prepareSkip (s ∈ env.tsvExistsSamples) (s ∈ env.zipExistsSamples) onlyTsv force)

/-! ### Idempotency discipline of the stages

Each stage's `run` loop either skips a sample (existing output, no `--force`)
or recomputes and rewrites it.  The skip conditions are taken from each
source file; the boolean in the result records whether the stage recomputed
(and rewrote) the output. -/

/-- `extract_cyto.run` (line 179): skip when the output exists and `--force`
is not given. -/
def extractCytoStep {α : Type} (force : Bool) (existing : Option α) (fresh : α) : α × Bool :=
  match existing with
  | some a => if force then (fresh, true) else (a, false)
  | none => (fresh, true)

/-- `summarise_pulses.run` (line 68): same skip condition. -/
def summarisePulsesStep {α : Type} (force : Bool) (existing : Option α) (fresh : α) : α × Bool :=
  match existing with
  | some a => if force then (fresh, true) else (a, false)
  | none => (fresh, true)

/-- `compute_features.run` (line 180): same skip condition. -/
def computeFeaturesStep {α : Type} (force : Bool) (existing : Option α) (fresh : α) : α × Bool :=
  match existing with
  | some a => if force then (fresh, true) else (a, false)
  | none => (fresh, true)

/-- `extract_meta.run` (lines 252–273) has no skip and no `--force`: it always
recomputes, and when the cumulative parquet exists it replaces the rows of the
re-processed samples and re-sorts by `sample_id` (stable sort). -/
def extractMetaStep {V : Type} (existing : Option (List (String × V)))
    (fresh : List (String × V)) : List (String × V) × Bool :=
  match existing with
  | some old =>
    ((old.filter (fun r => ¬ fresh.any (fun n => n.1 = r.1)) ++ fresh).insertionSort
        (fun a b => a.1 ≤ b.1), true)
  | none => (fresh.insertionSort (fun a b => a.1 ≤ b.1), true)

/-! ### Spec-side semantics for the nested-tree resolver

Modelled from the spec (§4.2): a value exists at path `P` in `D` when the
path's plain segments descend through object keys and every list-descent
segment names a key that actually holds a list — with no remaining path the
list itself is the (multi-)value, otherwise some element must contain a value
at the remainder.  Used to state claim C6's "no value exists at P". -/

/-- Does a value exist at the (pre-split) path in the document, reading the
path the way spec §4.2 describes resolution? -/
def specValueExists : Json → List String → Bool
  | _, [] => true
  | .obj kvs, part :: rest =>
    if pyEndsWith part "[]" then
      match lookupKV kvs (pyDropRight2 part) with
      | some (.arr items) =>
        if rest = [] then true else items.any fun j => specValueExists j rest
      | _ => false
    else
      match lookupKV kvs part with
      | some v => specValueExists v rest
      | none => false
  | _, _ :: _ => false

/-! ### Straight-line key descent (used to characterise plain paths) -/

/-- Descend through object keys along plain segments, returning the stored
value (which may be `Json.null`). -/
def lookupPath : Json → List String → Option Json
  | d, [] => some d
  | .obj kvs, part :: rest =>
    match lookupKV kvs part with
    | some v => lookupPath v rest
    | none => none
  | _, _ :: _ => none

/-- Does this parameter record match the discriminator?  Mirrors the test of
`_get_parameter_value`: a dict whose `description` entry is the string `d`
(non-dict records never match, Python `==` between a non-string and `d` is
`False`). -/
def matchesDescription (d : String) : Json → Bool
  | .obj kvs =>
    match dictGet kvs "description" with
    | some (.str s) => s = d
    | _ => false
  | _ => false

/-! ## Helper lemmas -/

theorem splitCharListOnce_of_not_mem {sep : Char} {l : List Char} (h : sep ∉ l) :
    splitCharListOnce sep l = (l, none) := by
  induction l with
  | nil => rfl
  | cons c cs ih =>
    simp only [List.mem_cons, not_or] at h
    simp [splitCharListOnce, Ne.symm h.1, ih h.2]

theorem splitCharListOnce_append {sep : Char} {l₁ l₂ : List Char} (h : sep ∉ l₁) :
    splitCharListOnce sep (l₁ ++ sep :: l₂) = (l₁, some l₂) := by
  induction l₁ with
  | nil => simp [splitCharListOnce]
  | cons c cs ih =>
    simp only [List.mem_cons, not_or] at h
    simp [splitCharListOnce, Ne.symm h.1, ih h.2]

theorem pySplit1_no_sep {sep : Char} {s : String} (h : sep ∉ s.data) :
    pySplit1 sep s = [s] := by
  cases s with
  | mk data => simp [pySplit1, splitCharListOnce_of_not_mem h]

theorem pySplit1_two {sep : Char} {a b : String} (h : sep ∉ a.data) :
    pySplit1 sep (a ++ String.mk [sep] ++ b) = [a, b] := by
  cases a with
  | mk da =>
    cases b with
    | mk db =>
      have hdata : (String.mk da ++ String.mk [sep] ++ String.mk db).data
          = da ++ sep :: db := by
        simp [String.data_append]
      simp [pySplit1, hdata, splitCharListOnce_append h]

theorem findParam_no_match {parameters : List Json} {d : String}
    (h : parameters.filter (matchesDescription d) = []) (k : String) :
    findParam parameters d k = none := by
  induction parameters with
  | nil => rfl
  | cons p ps ih =>
    rw [List.filter_cons] at h
    by_cases hp : matchesDescription d p = true
    · simp [hp] at h
    · cases p with
      | obj kvs =>
        simp only [hp, if_neg, Bool.false_eq_true, ite_false] at h
        simp only [matchesDescription] at hp
        unfold findParam
        cases hd : dictGet kvs "description" with
        | none => exact ih h
        | some v =>
          cases v with
          | str s =>
            rw [hd] at hp
            simp only [decide_eq_true_eq] at hp
            have hs : s ≠ d := by
              intro heq; exact hp (by simp [heq])
            simp [hs, ih h]
          | null => exact ih h
          | bool b => exact ih h
          | num n => exact ih h
          | arr xs => exact ih h
          | obj kvs2 => exact ih h
      | null => simpa [matchesDescription] using ih (by simpa [hp] using h)
      | bool b => simpa [matchesDescription] using ih (by simpa [hp] using h)
      | num n => simpa [matchesDescription] using ih (by simpa [hp] using h)
      | str s => simpa [matchesDescription] using ih (by simpa [hp] using h)
      | arr xs => simpa [matchesDescription] using ih (by simpa [hp] using h)

theorem findParam_unique_match {parameters : List Json} {d : String} {kvs : List (String × Json)}
    (h : parameters.filter (matchesDescription d) = [Json.obj kvs]) (k : String) :
    findParam parameters d k = dictGet kvs k := by
  induction parameters with
  | nil => simp at h
  | cons p ps ih =>
    rw [List.filter_cons] at h
    by_cases hp : matchesDescription d p = true
    · simp only [hp, if_pos, List.cons.injEq] at h
      obtain ⟨hpe, hrest⟩ := h
      subst hpe
      simp only [matchesDescription] at hp
      cases hd : dictGet kvs "description" with
      | none => rw [hd] at hp; simp at hp
      | some v =>
        cases v with
        | str s =>
          rw [hd] at hp
          simp only [decide_eq_true_eq] at hp
          unfold findParam
          simp [hd, hp]
        | null => rw [hd] at hp; simp at hp
        | bool b => rw [hd] at hp; simp at hp
        | num n => rw [hd] at hp; simp at hp
        | arr xs => rw [hd] at hp; simp at hp
        | obj kvs2 => rw [hd] at hp; simp at hp
    · cases p with
      | obj kvs2 =>
        simp only [hp, Bool.false_eq_true, ite_false] at h
        simp only [matchesDescription] at hp
        unfold findParam
        cases hd : dictGet kvs2 "description" with
        | none => exact ih h
        | some v =>
          cases v with
          | str s =>
            rw [hd] at hp
            simp only [decide_eq_true_eq] at hp
            have hs : s ≠ d := by
              intro hel; exact hp (by simp [hel])
            simp [hs, ih h]
          | null => exact ih h
          | bool b => exact ih h
          | num n => exact ih h
          | arr xs => exact ih h
          | obj kvs3 => exact ih h
      | null => simpa [matchesDescription] using ih (by simpa [hp] using h)
      | bool b => simpa [matchesDescription] using ih (by simpa [hp] using h)
      | num n => simpa [matchesDescription] using ih (by simpa [hp] using h)
      | str s => simpa [matchesDescription] using ih (by simpa [hp] using h)
      | arr xs => simpa [matchesDescription] using ih (by simpa [hp] using h)

/-! ## Claims -/

/-- Claim C10: for every list of parameter records, `_get_parameter_value`
called with a path containing no dot returns `None` without consulting the
records, even when some record's `description` equals the whole path. -/
theorem c10_single_segment_path_none (parameters : List Json) (path : String)
    (h : '.' ∉ path.data) : getParameterValue parameters path = none := by
  unfold getParameterValue
  rw [pySplit1_no_sep h]

theorem c10_single_segment_path_none_witness :
    '.' ∉ "FWS".data ∧
      getParameterValue [Json.obj [("description", Json.str "FWS"), ("length", Json.num "1")]]
        "FWS" = none :=
  ⟨by decide,
   c10_single_segment_path_none
     [Json.obj [("description", Json.str "FWS"), ("length", Json.num "1")]] "FWS" (by decide)⟩

/-- Claim C5: for every record list and every two-segment path
`<discriminator>.<field>` (the discriminator contains no dot, so
`split('.', 1)` cuts exactly there), `_get_parameter_value` returns the
matching record's `field` entry (`dict.get`: `None` when the field is absent
or null) when exactly one record's `description` matches, and `None` when no
record matches. -/
theorem c5_tagged_record_resolution (parameters : List Json) (d k : String)
    (hd : '.' ∉ d.data) :
    (parameters.filter (matchesDescription d) = [] →
      getParameterValue parameters (d ++ "." ++ k) = none) ∧
    (∀ kvs : List (String × Json), parameters.filter (matchesDescription d) = [Json.obj kvs] →
      getParameterValue parameters (d ++ "." ++ k) = dictGet kvs k) := by
  have hsplit : pySplit1 '.' (d ++ "." ++ k) = [d, k] := pySplit1_two hd
  constructor
  · intro h
    unfold getParameterValue
    rw [hsplit]
    exact findParam_no_match h k
  · intro kvs h
    unfold getParameterValue
    rw [hsplit]
    exact findParam_unique_match h k

theorem c5_tagged_record_resolution_witness :
    '.' ∉ "FWS".data ∧
      getParameterValue
        [Json.obj [("description", Json.str "FWS"), ("length", Json.num "0.98")],
         Json.obj [("description", Json.str "Sidewards Scatter"), ("length", Json.num "10.77")]]
        "FWS.length" = some (Json.num "0.98") := by
  refine ⟨by decide, ?_⟩
  have h := (c5_tagged_record_resolution
    [Json.obj [("description", Json.str "FWS"), ("length", Json.num "0.98")],
     Json.obj [("description", Json.str "Sidewards Scatter"), ("length", Json.num "10.77")]]
    "FWS" "length" (by decide)).2
    [("description", Json.str "FWS"), ("length", Json.num "0.98")] rfl
  exact h

theorem foldl_min_le_init (vs : List ℚ) (v : ℚ) : vs.foldl min v ≤ v := by
  induction vs generalizing v with
  | nil => exact le_refl v
  | cons x xs ih => exact le_trans (ih (min v x)) (min_le_left v x)

theorem foldl_min_le_mem {vs : List ℚ} {x : ℚ} (hx : x ∈ vs) (v : ℚ) :
    vs.foldl min v ≤ x := by
  induction vs generalizing v with
  | nil => cases hx
  | cons y ys ih =>
    rcases List.mem_cons.mp hx with h | h
    · subst h
      exact le_trans (foldl_min_le_init ys (min v x)) (min_le_right v x)
    · exact ih h (min v y)

theorem foldl_min_mem (vs : List ℚ) (v : ℚ) : vs.foldl min v ∈ v :: vs := by
  induction vs generalizing v with
  | nil => simp
  | cons x xs ih =>
    rw [List.foldl_cons]
    rcases List.mem_cons.mp (ih (min v x)) with h1 | h1
    · rcases min_choice v x with hc | hc
      · exact List.mem_cons.mpr (Or.inl (h1.trans hc))
      · exact List.mem_cons.mpr (Or.inr (List.mem_cons.mpr (Or.inl (h1.trans hc))))
    · exact List.mem_cons.mpr (Or.inr (List.mem_cons.mpr (Or.inr h1)))

theorem le_foldl_max_init (vs : List ℚ) (v : ℚ) : v ≤ vs.foldl max v := by
  induction vs generalizing v with
  | nil => exact le_refl v
  | cons x xs ih => exact le_trans (le_max_left v x) (ih (max v x))

theorem mem_le_foldl_max {vs : List ℚ} {x : ℚ} (hx : x ∈ vs) (v : ℚ) :
    x ≤ vs.foldl max v := by
  induction vs generalizing v with
  | nil => cases hx
  | cons y ys ih =>
    rcases List.mem_cons.mp hx with h | h
    · subst h
      exact le_trans (le_max_right v x) (le_foldl_max_init ys (max v x))
    · exact ih h (max v y)

theorem foldl_max_mem (vs : List ℚ) (v : ℚ) : vs.foldl max v ∈ v :: vs := by
  induction vs generalizing v with
  | nil => simp
  | cons x xs ih =>
    rw [List.foldl_cons]
    rcases List.mem_cons.mp (ih (max v x)) with h1 | h1
    · rcases max_choice v x with hc | hc
      · exact List.mem_cons.mpr (Or.inl (h1.trans hc))
      · exact List.mem_cons.mpr (Or.inr (List.mem_cons.mpr (Or.inl (h1.trans hc))))
    · exact List.mem_cons.mpr (Or.inr (List.mem_cons.mpr (Or.inr h1)))

theorem pulseMin_le {v : ℚ} {vs : List ℚ} {x : ℚ} (hx : x ∈ v :: vs) :
    pulseMin v vs ≤ x := by
  rcases List.mem_cons.mp hx with h | h
  · subst h; exact foldl_min_le_init vs x
  · exact foldl_min_le_mem h v

theorem le_pulseMax {v : ℚ} {vs : List ℚ} {x : ℚ} (hx : x ∈ v :: vs) :
    x ≤ pulseMax v vs := by
  rcases List.mem_cons.mp hx with h | h
  · subst h; exact le_foldl_max_init vs x
  · exact mem_le_foldl_max h v

/-- Claim C8: `_normalise_pulse` maps every non-empty constant waveform to an
all-zero vector of the same length without a division error; a non-constant
waveform maps to `(v - min) / (max - min)`, and every output lies in
`[0, 1]`.  (A waveform is constant exactly when every value equals the
first.) -/
theorem c8_normalise_pulse (v : ℚ) (vs : List ℚ) :
    ((∀ x ∈ v :: vs, x = v) →
      normalisePulse (v :: vs) = List.replicate (v :: vs).length 0) ∧
    ((∃ x ∈ v :: vs, x ≠ v) →
      normalisePulse (v :: vs)
        = (v :: vs).map fun x => (x - pulseMin v vs) / (pulseMax v vs - pulseMin v vs)) ∧
    (∀ y ∈ normalisePulse (v :: vs), 0 ≤ y ∧ y ≤ 1) := by
  have hmem_min : pulseMin v vs ∈ v :: vs := foldl_min_mem vs v
  have hmem_max : pulseMax v vs ∈ v :: vs := foldl_max_mem vs v
  have hmin_le_max : pulseMin v vs ≤ pulseMax v vs := le_pulseMax hmem_min
  have hconst : (∀ x ∈ v :: vs, x = v) → pulseMax v vs = pulseMin v vs := by
    intro h
    rw [h _ hmem_min, h _ hmem_max]
  have hnonconst : (∃ x ∈ v :: vs, x ≠ v) → pulseMax v vs ≠ pulseMin v vs := by
    rintro ⟨x, hx, hxv⟩ heq
    have h1 : x = pulseMin v vs := le_antisymm (heq ▸ le_pulseMax hx) (pulseMin_le hx)
    have h2 : v = pulseMin v vs :=
      le_antisymm (heq ▸ le_pulseMax (List.mem_cons_self v vs)) (pulseMin_le (List.mem_cons_self v vs))
    exact hxv (h1.trans h2.symm)
  refine ⟨?_, ?_, ?_⟩
  · intro h
    simp only [normalisePulse, hconst h, if_pos]
  · intro h
    simp only [normalisePulse, hnonconst h, if_neg, ite_false]
  · intro y hy
    by_cases hc : pulseMax v vs = pulseMin v vs
    · simp only [normalisePulse, hc, if_pos] at hy
      rw [List.eq_of_mem_replicate hy]
      norm_num
    · simp only [normalisePulse, hc, ite_false] at hy
      obtain ⟨x, hx, hxy⟩ := List.mem_map.mp hy
      have hlt : pulseMin v vs < pulseMax v vs := lt_of_le_of_ne hmin_le_max (Ne.symm hc)
      have hpos : (0 : ℚ) < pulseMax v vs - pulseMin v vs := by linarith
      subst hxy
      constructor
      · apply div_nonneg _ (le_of_lt hpos)
        have := pulseMin_le hx
        linarith
      · rw [div_le_one hpos]
        have := le_pulseMax hx
        linarith

theorem c8_normalise_pulse_witness :
    normalisePulse [2, 2, 2] = [0, 0, 0] ∧ normalisePulse [0, 2, 1] = [0, 1, 1/2] := by
  constructor
  · have h := (c8_normalise_pulse 2 [2, 2]).1 (by intro x hx; simpa using hx)
    simpa using h
  · have h := (c8_normalise_pulse 0 [2, 1]).2.1 ⟨2, by norm_num⟩
    rw [h]
    norm_num [pulseMin, pulseMax]

theorem pyMaxBy_mem (f : Nat → Nat) (xs : List Nat) (x : Nat) :
    pyMaxBy f x xs ∈ x :: xs := by
  induction xs generalizing x with
  | nil => simp [pyMaxBy]
  | cons z zs ih =>
    unfold pyMaxBy
    rw [List.foldl_cons]
    by_cases hz : f z > f x
    · rw [if_pos hz]
      exact List.mem_cons_of_mem x (ih z)
    · rw [if_neg hz]
      rcases List.mem_cons.mp (ih x) with h | h
      · exact List.mem_cons.mpr (Or.inl h)
      · exact List.mem_cons.mpr (Or.inr (List.mem_cons.mpr (Or.inr h)))

theorem le_pyMaxBy_init (f : Nat → Nat) (xs : List Nat) (x : Nat) :
    f x ≤ f (pyMaxBy f x xs) := by
  induction xs generalizing x with
  | nil => simp [pyMaxBy]
  | cons z zs ih =>
    unfold pyMaxBy
    rw [List.foldl_cons]
    by_cases hz : f z > f x
    · rw [if_pos hz]
      exact le_trans (le_of_lt hz) (ih z)
    · rw [if_neg hz]
      exact ih x

theorem le_pyMaxBy_mem (f : Nat → Nat) {xs : List Nat} {y : Nat} (hy : y ∈ xs) (x : Nat) :
    f y ≤ f (pyMaxBy f x xs) := by
  induction xs generalizing x with
  | nil => cases hy
  | cons z zs ih =>
    unfold pyMaxBy
    rw [List.foldl_cons]
    rcases List.mem_cons.mp hy with h | h
    · subst h
      by_cases hz : f y > f x
      · rw [if_pos hz]
        exact le_pyMaxBy_init f zs y
      · rw [if_neg hz]
        exact le_trans (Nat.le_of_not_lt hz) (le_pyMaxBy_init f zs x)
    · by_cases hz : f z > f x
      · rw [if_pos hz]
        exact ih h z
      · rw [if_neg hz]
        exact ih h x

theorem pyMaxBy_first (f : Nat → Nat) (xs : List Nat) (x : Nat)
    (hsort : (x :: xs).Pairwise (· < ·)) :
    ∀ y ∈ x :: xs, f y = f (pyMaxBy f x xs) → pyMaxBy f x xs ≤ y := by
  induction xs generalizing x with
  | nil =>
    intro y hy _
    rw [List.mem_singleton.mp hy]
    simp [pyMaxBy]
  | cons z zs ih =>
    rw [List.pairwise_cons] at hsort
    obtain ⟨hxlt, hsort'⟩ := hsort
    intro y hy hfy
    by_cases hz : f z > f x
    · have hstep : pyMaxBy f x (z :: zs) = pyMaxBy f z zs := by
        unfold pyMaxBy
        rw [List.foldl_cons, if_pos hz]
      rw [hstep] at hfy ⊢
      rcases List.mem_cons.mp hy with h | h
      · -- y = x is impossible as a tie: f x < f z ≤ f (pyMaxBy f z zs)
        subst h
        have : f y < f (pyMaxBy f z zs) := lt_of_lt_of_le hz (le_pyMaxBy_init f zs z)
        omega
      · exact ih z hsort' y h hfy
    · have hstep : pyMaxBy f x (z :: zs) = pyMaxBy f x zs := by
        unfold pyMaxBy
        rw [List.foldl_cons, if_neg hz]
      have hsort'' : (x :: zs).Pairwise (· < ·) := by
        rw [List.pairwise_cons]
        rw [List.pairwise_cons] at hsort'
        exact ⟨fun b hb => hxlt b (List.mem_cons_of_mem z hb), hsort'.2⟩
      rw [hstep] at hfy ⊢
      rcases List.mem_cons.mp hy with h | h
      · exact ih x hsort'' y (h ▸ List.mem_cons_self x zs) hfy
      · rcases List.mem_cons.mp h with h1 | h1
        · -- y = z: a tie with z forces a tie with x, and the result sits at or
          -- before x < z
          have hfz : f z = f (pyMaxBy f x zs) := h1 ▸ hfy
          have hfx : f x = f (pyMaxBy f x zs) := by
            have ha := le_pyMaxBy_init f zs x
            have hb := Nat.le_of_not_lt hz
            omega
          have hres := ih x hsort'' x (List.mem_cons_self x zs) hfx
          have hxz := hxlt z (List.mem_cons_self z zs)
          rw [h1]
          omega
        · exact ih x hsort'' y (List.mem_cons_of_mem x h1) hfy

/-- Claim C9: after connected-component labeling, `_segment_particle` selects
the component with the largest pixel count, and a tie between equal-area
components goes to the lowest label (`regionprops` lists labels in ascending
order and Python `max` keeps the first maximum); the returned mask is the
pixels of the selected label. -/
theorem c9_largest_component_lowest_label (labeled : List Nat)
    (h : 0 < maxLabel labeled) :
    ∃ sel, segmentSelect labeled = some sel ∧
      sel ∈ regionLabels labeled ∧
      (∀ l ∈ regionLabels labeled, labelArea labeled l ≤ labelArea labeled sel) ∧
      (∀ l ∈ regionLabels labeled, labelArea labeled l = labelArea labeled sel → sel ≤ l) ∧
      segmentMask labeled = some (labeled.map fun p => decide (p = sel)) := by
  obtain ⟨n, hn⟩ : ∃ n, maxLabel labeled = n + 1 :=
    ⟨maxLabel labeled - 1, by omega⟩
  have hr : regionLabels labeled = 1 :: List.range' 2 n := by
    rw [regionLabels, hn]
    rfl
  have hsel : segmentSelect labeled = some (pyMaxBy (labelArea labeled) 1 (List.range' 2 n)) := by
    rw [segmentSelect, if_neg (by omega), hr]
  have hsort : (1 :: List.range' 2 n).Pairwise (· < ·) := by
    have := List.pairwise_lt_range' 1 (n + 1)
    rwa [show List.range' 1 (n + 1) = 1 :: List.range' 2 n from rfl] at this
  refine ⟨pyMaxBy (labelArea labeled) 1 (List.range' 2 n), hsel, ?_, ?_, ?_, ?_⟩
  · rw [hr]
    exact pyMaxBy_mem _ _ _
  · rw [hr]
    intro l hl
    rcases List.mem_cons.mp hl with h1 | h1
    · subst h1; exact le_pyMaxBy_init _ _ _
    · exact le_pyMaxBy_mem _ h1 _
  · rw [hr]
    exact fun l hl hle => pyMaxBy_first _ _ _ hsort l hl hle
  · rw [segmentMask, hsel]
    rfl

theorem c9_largest_component_lowest_label_witness :
    0 < maxLabel [0, 1, 1, 2, 2] ∧
      (∃ sel, segmentSelect [0, 1, 1, 2, 2] = some sel ∧
        sel ∈ regionLabels [0, 1, 1, 2, 2] ∧
        (∀ l ∈ regionLabels [0, 1, 1, 2, 2],
          labelArea [0, 1, 1, 2, 2] l ≤ labelArea [0, 1, 1, 2, 2] sel) ∧
        (∀ l ∈ regionLabels [0, 1, 1, 2, 2],
          labelArea [0, 1, 1, 2, 2] l = labelArea [0, 1, 1, 2, 2] sel → sel ≤ l) ∧
        segmentMask [0, 1, 1, 2, 2] = some ([0, 1, 1, 2, 2].map fun p => decide (p = sel))) :=
  ⟨by decide, c9_largest_component_lowest_label [0, 1, 1, 2, 2] (by decide)⟩

/-- Claim C1 (amended): cytometric extraction, pulse summarisation,
image-feature computation and export assembly skip a sample whose destination
output exists when `--force` is not given, leaving the output unchanged and
performing no recomputation (`prepare` checks the TSV in `--only-tsv` mode
and the ZIP otherwise); metadata extraction (`extract_meta`) is the
exception: it always recomputes, replacing the re-processed samples' rows in
the cumulative artifact even when the output file already exists. -/
theorem c1_stage_idempotency_amended :
    (∀ a fresh : String, extractCytoStep false (some a) fresh = (a, false)) ∧
    (∀ a fresh : String, summarisePulsesStep false (some a) fresh = (a, false)) ∧
    (∀ a fresh : String, computeFeaturesStep false (some a) fresh = (a, false)) ∧
    (∀ zipExists : Bool, prepareSkip true zipExists true false = true) ∧
    (∀ tsvExists : Bool, prepareSkip tsvExists true false false = true) ∧
    (∀ old fresh : List (String × String), (extractMetaStep (some old) fresh).2 = true) := by
  refine ⟨fun a fresh => rfl, fun a fresh => rfl, fun a fresh => rfl, ?_, ?_,
    fun old fresh => rfl⟩
  · intro zipExists; rfl
  · intro tsvExists; cases tsvExists <;> rfl

/-- Claim C1 counterexample: `extract_meta.run` has no skip branch and no
`--force` flag — re-running it with an identical input recomputes (and
rewrites the cumulative parquet), where the claim requires that an existing
output blocks recomputation for every stage. -/
theorem c1_stage_idempotency_counterexample :
    ¬ (extractMetaStep (some [("s1", "v")]) [("s1", "v")]).2 = false := by
  decide

theorem mem_missingArtifacts {env : PrepareEnv} {samples : List String}
    {s : String} {a : Artifact} :
    (s, a) ∈ missingArtifacts env samples ↔ s ∈ samples ∧ artifactMissing env s a = true := by
  unfold missingArtifacts
  rw [List.mem_flatMap]
  constructor
  · rintro ⟨s', hs', hmem⟩
    obtain ⟨a', ha', heq⟩ := List.mem_map.mp hmem
    injection heq with h1 h2
    subst h1
    subst h2
    exact ⟨hs', (List.mem_filter.mp ha').2⟩
  · rintro ⟨hs, hmiss⟩
    refine ⟨s, hs, List.mem_map.mpr ⟨a, List.mem_filter.mpr ⟨?_, hmiss⟩, rfl⟩⟩
    cases a <;> simp

/-- Claim C4: the preflight validation of `prepare` checks every requested
sample for all five required artifacts (instrument metadata row, cytometric
features, pulses, image directory, image features); if anything is missing
the whole batch aborts with the per-sample, per-artifact warning list, and no
sample's output is written. -/
theorem c4_preflight_validation (env : PrepareEnv) (samples : List String)
    (onlyTsv force : Bool)
    (hfile : env.instrumentMetaFileExists = true)
    (hmiss : missingArtifacts env samples ≠ []) :
    prepareRun env samples onlyTsv force
        = .errorMissingInputs (missingArtifacts env samples) ∧
    (∀ s a, (s, a) ∈ missingArtifacts env samples ↔
        s ∈ samples ∧ artifactMissing env s a = true) ∧
    (∀ written, prepareRun env samples onlyTsv force ≠ .written written) := by
  have hrun : prepareRun env samples onlyTsv force
      = .errorMissingInputs (missingArtifacts env samples) := by
    unfold prepareRun
    rw [hfile]
    simp [hmiss]
  exact ⟨hrun, fun s a => mem_missingArtifacts, fun written h => by
    rw [hrun] at h; exact PrepareOutcome.noConfusion h⟩

/-- A concrete project state: sample `a` lacks its pulses file, sample `b`
lacks its instrument metadata row and its image directory. -/
def prepareRunEnvExample : PrepareEnv :=
  ⟨true, ["a"], ["a", "b"], ["b"], ["a"], ["a", "b"], [], []⟩

theorem c4_preflight_validation_witness :
    (prepareRunEnvExample.instrumentMetaFileExists = true) ∧
    (missingArtifacts prepareRunEnvExample ["a", "b"] ≠ []) ∧
    (prepareRun prepareRunEnvExample ["a", "b"] false false
        = .errorMissingInputs
            [("a", .pulses), ("b", .instrumentMeta), ("b", .imagesDir)]) ∧
    (∀ written, prepareRun prepareRunEnvExample ["a", "b"] false false ≠ .written written) := by
  have h := c4_preflight_validation prepareRunEnvExample ["a", "b"] false false
    (by decide) (by decide)
  refine ⟨by decide, by decide, ?_, h.2.2⟩
  rw [h.1]
  decide

theorem mem_leftMergeOn_no_match {K K2 V : Type} [DecidableEq K2] (proj : K → K2)
    {left : Table K V} {right : Table K2 V} {k : K} {vs : List (Option V)}
    (hmem : (k, vs) ∈ left.rows) (hno : ∀ r ∈ right.rows, r.1 ≠ proj k) :
    (k, vs ++ List.replicate right.cols.length none) ∈ (leftMergeOn proj left right).rows := by
  unfold leftMergeOn
  rw [List.mem_flatMap]
  refine ⟨(k, vs), hmem, ?_⟩
  have hfilter : right.rows.filter (fun rr => rr.1 = proj k) = [] := by
    rw [List.filter_eq_nil_iff]
    intro r hr
    simp [hno r hr]
  simp only [hfilter]
  simp

theorem mem_leftMergeOn_exists {K K2 V : Type} [DecidableEq K2] (proj : K → K2)
    {left : Table K V} (right : Table K2 V) {k : K} {vs : List (Option V)}
    (hmem : (k, vs) ∈ left.rows) :
    ∃ ws, (k, vs ++ ws) ∈ (leftMergeOn proj left right).rows := by
  unfold leftMergeOn
  cases hfilter : right.rows.filter (fun rr => rr.1 = proj k) with
  | nil =>
    refine ⟨List.replicate right.cols.length none, ?_⟩
    rw [List.mem_flatMap]
    refine ⟨(k, vs), hmem, ?_⟩
    simp only [hfilter]
    simp
  | cons m ms =>
    refine ⟨m.2, ?_⟩
    rw [List.mem_flatMap]
    refine ⟨(k, vs), hmem, ?_⟩
    simp only [hfilter]
    exact List.mem_map.mpr ⟨m, List.mem_cons_self m ms, rfl⟩

theorem mem_addProcessId {K V : Type} {t : Table K V} {k : K} {vs : List (Option V)}
    (hmem : (k, vs) ∈ t.rows) :
    (k, vs ++ [(vs.get? (t.cols.indexOf "acq_id")).join]) ∈ (addProcessId t).rows := by
  unfold addProcessId
  exact List.mem_map.mpr ⟨(k, vs), hmem, rfl⟩

/-- Claim C3: in `_merge_sample_data`, every `object_id` present in the
cytometric feature table survives the left-join chain — it appears as a row
of the merged table, and when it is absent from both the image-feature and
pulse tables its companion columns are null (`none`), the row is not
dropped. -/
theorem c3_left_join_preserves_objects {V : Type}
    (cyto imageFeatures pulses : Table (String × String) V)
    (sampleMeta instrumentMeta : Table String V)
    (k : String × String) (vs : List (Option V))
    (hmem : (k, vs) ∈ cyto.rows) :
    (∃ ws, (k, vs ++ ws)
        ∈ (mergeSampleData cyto imageFeatures pulses sampleMeta instrumentMeta).rows) ∧
    ((∀ r ∈ imageFeatures.rows, r.1 ≠ k) → (∀ r ∈ pulses.rows, r.1 ≠ k) →
      ∃ ws, (k, (vs ++ List.replicate imageFeatures.cols.length none
            ++ List.replicate pulses.cols.length none) ++ ws)
        ∈ (mergeSampleData cyto imageFeatures pulses sampleMeta instrumentMeta).rows) := by
  constructor
  · obtain ⟨w1, h1⟩ := mem_leftMergeOn_exists id imageFeatures hmem
    obtain ⟨w2, h2⟩ := mem_leftMergeOn_exists id pulses h1
    obtain ⟨w3, h3⟩ := mem_leftMergeOn_exists Prod.fst sampleMeta h2
    obtain ⟨w4, h4⟩ := mem_leftMergeOn_exists Prod.fst instrumentMeta h3
    have h5 := mem_addProcessId h4
    exact ⟨_, by simpa [mergeSampleData, List.append_assoc] using h5⟩
  · intro himg hpul
    have h1 := mem_leftMergeOn_no_match id hmem himg
    have h2 := mem_leftMergeOn_no_match id h1 hpul
    obtain ⟨w3, h3⟩ := mem_leftMergeOn_exists Prod.fst sampleMeta h2
    obtain ⟨w4, h4⟩ := mem_leftMergeOn_exists Prod.fst instrumentMeta h3
    have h5 := mem_addProcessId h4
    exact ⟨_, by simpa [mergeSampleData, List.append_assoc] using h5⟩

/-- The merge scenario from the spec: cytometric objects A, B, C; image
features only for A and B; pulses for all three. -/
def cytoTableExample : Table (String × String) String :=
  ⟨["object_size"],
   [(("s", "s_A"), [some "1"]), (("s", "s_B"), [some "2"]), (("s", "s_C"), [some "3"])]⟩

/-- Image features for A and B only. -/
def imageFeaturesTableExample : Table (String × String) String :=
  ⟨["object_area"], [(("s", "s_A"), [some "10"]), (("s", "s_B"), [some "20"])]⟩

/-- Pulses for A and B only, so that C's companion columns are all null. -/
def pulsesTableExample : Table (String × String) String :=
  ⟨["object_p0"], [(("s", "s_A"), [some "0"]), (("s", "s_B"), [some "0"])]⟩

/-- One custom metadata row for the sample. -/
def sampleMetaTableExample : Table String String :=
  ⟨["sample_lat"], [("s", [some "43"])]⟩

/-- One instrument metadata row for the sample. -/
def instrumentMetaTableExample : Table String String :=
  ⟨["acq_id"], [("s", [some "s"])]⟩

theorem c3_left_join_preserves_objects_witness :
    (("s", "s_C"), [some "3"]) ∈ cytoTableExample.rows ∧
    (∀ r ∈ imageFeaturesTableExample.rows, r.1 ≠ ("s", "s_C")) ∧
    (∃ ws, ((("s", "s_C") : String × String),
        ([some "3"] ++ List.replicate imageFeaturesTableExample.cols.length none
          ++ List.replicate pulsesTableExample.cols.length none) ++ ws)
      ∈ (mergeSampleData cytoTableExample imageFeaturesTableExample pulsesTableExample
          sampleMetaTableExample instrumentMetaTableExample).rows) := by
  refine ⟨by decide, by decide, ?_⟩
  have h := (c3_left_join_preserves_objects cytoTableExample imageFeaturesTableExample
    pulsesTableExample sampleMetaTableExample instrumentMetaTableExample
    ("s", "s_C") [some "3"] (by decide)).2 (by decide)
  exact h (by decide)

theorem isPrefixOf_total {l₁ l₂ l₃ : List Char} (h1 : l₁.isPrefixOf l₃ = true)
    (h2 : l₂.isPrefixOf l₃ = true) :
    l₁.isPrefixOf l₂ = true ∨ l₂.isPrefixOf l₁ = true := by
  induction l₃ generalizing l₁ l₂ with
  | nil =>
    cases l₁ with
    | nil => exact Or.inl (by cases l₂ <;> rfl)
    | cons a as => simp [List.isPrefixOf] at h1
  | cons c cs ih =>
    cases l₁ with
    | nil => exact Or.inl (by cases l₂ <;> rfl)
    | cons a as =>
      cases l₂ with
      | nil => exact Or.inr rfl
      | cons b bs =>
        simp only [List.isPrefixOf, Bool.and_eq_true, beq_iff_eq] at h1 h2 ⊢
        obtain ⟨rfl, h1'⟩ := h1
        obtain ⟨rfl, h2'⟩ := h2
        rcases ih h1' h2' with h | h
        · exact Or.inl ⟨rfl, h⟩
        · exact Or.inr ⟨rfl, h⟩

theorem startsWith_excl {c p q : String} (hp : pyStartsWith c p = true)
    (hq : pyStartsWith c q = true)
    (h1 : p.data.isPrefixOf q.data = false) (h2 : q.data.isPrefixOf p.data = false) :
    False := by
  unfold pyStartsWith at hp hq
  rcases isPrefixOf_total hp hq with h | h
  · rw [h1] at h; cases h
  · rw [h2] at h; cases h

theorem length_filter_partition (p q : String → Bool) (l : List String) :
    ((l.filter q ++ l.filter (fun c => !q c)).filter p).length = (l.filter p).length :=
  ((List.filter_append_perm q l).filter p).length_eq

/-- Claim C2: when the merged table holds more than 501 `object_`-prefixed
columns, `_prepare_ecotaxa_tsv` keeps exactly the first 501 of them
(`object_id` plus 500 features) in their original order — nothing dropped
from the front, nothing reordered — and emits exactly one truncation warning.
(The hypotheses fix the claim's scenario: `object_id` is the first
object-prefixed column of the merged table — `_merge_sample_data` always
places it before the object features — no feature column ends in `_id`, and
the process/acq/sample groups are within their own limits.) -/
theorem c2_object_column_truncation (cols : List String) (feats : List String)
    (hobj : cols.filter (fun c => pyStartsWith c "object_") = "object_id" :: feats)
    (hfeats : ∀ f ∈ feats, pyEndsWith f "_id" = false)
    (hcount : 501 < (cols.filter (fun c => pyStartsWith c "object_")).length)
    (hproc : (cols.filter (fun c => pyStartsWith c "process_")).length ≤ 31)
    (hacq : (cols.filter (fun c => pyStartsWith c "acq_")).length ≤ 31)
    (hsample : (cols.filter (fun c => pyStartsWith c "sample_")).length ≤ 61) :
    (prepareColumns cols).1.filter (fun c => pyStartsWith c "object_")
        = (cols.filter (fun c => pyStartsWith c "object_")).take 501 ∧
    ((prepareColumns cols).1.filter (fun c => pyStartsWith c "object_")).length = 501 ∧
    (prepareColumns cols).2 = ["object"] := by
  set Pobj : String → Bool := fun c => pyStartsWith c "object_" with hPobj
  set Pid : String → Bool := fun c => pyEndsWith c "_id" with hPid
  have hcols2obj :
      ((cols.filter Pid ++ cols.filter (fun c => !Pid c)).filter Pobj)
        = "object_id" :: feats := by
    rw [List.filter_append]
    have h1 : (cols.filter Pid).filter Pobj = (cols.filter Pobj).filter Pid := by
      rw [List.filter_filter, List.filter_filter]
      exact List.filter_congr fun a _ => Bool.and_comm _ _
    have h2 : (cols.filter (fun c => !Pid c)).filter Pobj
        = (cols.filter Pobj).filter (fun c => !Pid c) := by
      rw [List.filter_filter, List.filter_filter]
      exact List.filter_congr fun a _ => Bool.and_comm _ _
    rw [h1, h2, hobj]
    have hid : Pid "object_id" = true := by rw [hPid]; decide
    have hfid : feats.filter Pid = [] := List.filter_eq_nil_iff.mpr fun f hf => by
      simp [hPid, hfeats f hf]
    have hfnid : feats.filter (fun c => !Pid c) = feats :=
      List.filter_eq_self.mpr fun f hf => by simp [hPid, hfeats f hf]
    rw [List.filter_cons, List.filter_cons]
    simp only [hid, hfid, hfnid]
    simp [hPid]
  have hcount2 :
      501 < ((cols.filter Pid ++ cols.filter (fun c => !Pid c)).filter Pobj).length := by
    rw [hcols2obj, ← hobj]
    exact hcount
  have hproc2 :
      ¬ 31 < ((cols.filter Pid ++ cols.filter (fun c => !Pid c)).filter
        (fun c => pyStartsWith c "process_")).length := by
    rw [length_filter_partition]
    omega
  have hacq2 :
      ¬ 31 < ((cols.filter Pid ++ cols.filter (fun c => !Pid c)).filter
        (fun c => pyStartsWith c "acq_")).length := by
    rw [length_filter_partition]
    omega
  have hsample2 :
      ¬ 61 < ((cols.filter Pid ++ cols.filter (fun c => !Pid c)).filter
        (fun c => pyStartsWith c "sample_")).length := by
    rw [length_filter_partition]
    omega
  have hout1 : (prepareColumns cols).1
      = (cols.filter Pid ++ cols.filter (fun c => !Pid c)).filter
          (fun c => pyStartsWith c "img_")
        ++ ("object_id" :: feats).take 501
        ++ (cols.filter Pid ++ cols.filter (fun c => !Pid c)).filter
          (fun c => pyStartsWith c "process_")
        ++ (cols.filter Pid ++ cols.filter (fun c => !Pid c)).filter
          (fun c => pyStartsWith c "acq_")
        ++ (cols.filter Pid ++ cols.filter (fun c => !Pid c)).filter
          (fun c => pyStartsWith c "sample_") := by
    unfold prepareColumns
    simp only [← hPid, ← hPobj]
    rw [if_pos (by rw [hcols2obj, ← hobj]; exact hcount), hcols2obj]
    rw [if_neg hproc2, if_neg hacq2, if_neg hsample2]
  have hout2 : (prepareColumns cols).2 = ["object"] := by
    unfold prepareColumns
    simp only [← hPid, ← hPobj]
    rw [if_pos (by rw [hcols2obj, ← hobj]; exact hcount)]
    rw [if_neg hproc2, if_neg hacq2, if_neg hsample2]
    rfl
  have hfilter_out : (prepareColumns cols).1.filter Pobj = ("object_id" :: feats).take 501 := by
    have himg : ∀ X : List String,
        (X.filter (fun c => pyStartsWith c "img_")).filter Pobj = [] := fun X =>
      List.filter_eq_nil_iff.mpr fun a ha hPa =>
        startsWith_excl (List.mem_filter.mp ha).2 hPa (by decide) (by decide)
    have hprocf : ∀ X : List String,
        (X.filter (fun c => pyStartsWith c "process_")).filter Pobj = [] := fun X =>
      List.filter_eq_nil_iff.mpr fun a ha hPa =>
        startsWith_excl (List.mem_filter.mp ha).2 hPa (by decide) (by decide)
    have hacqf : ∀ X : List String,
        (X.filter (fun c => pyStartsWith c "acq_")).filter Pobj = [] := fun X =>
      List.filter_eq_nil_iff.mpr fun a ha hPa =>
        startsWith_excl (List.mem_filter.mp ha).2 hPa (by decide) (by decide)
    have hsamplef : ∀ X : List String,
        (X.filter (fun c => pyStartsWith c "sample_")).filter Pobj = [] := fun X =>
      List.filter_eq_nil_iff.mpr fun a ha hPa =>
        startsWith_excl (List.mem_filter.mp ha).2 hPa (by decide) (by decide)
    have hkeep : (("object_id" :: feats).take 501).filter Pobj
        = ("object_id" :: feats).take 501 := by
      refine List.filter_eq_self.mpr fun a ha => ?_
      have : a ∈ "object_id" :: feats := List.take_subset 501 _ ha
      rw [← hobj] at this
      exact (List.mem_filter.mp this).2
    rw [hout1]
    simp only [List.filter_append, himg, hprocf, hacqf, hsamplef, hkeep]
    simp
  refine ⟨?_, ?_, hout2⟩
  · rw [hfilter_out, hobj]
  · rw [hfilter_out]
    have : ("object_id" :: feats).length = (cols.filter Pobj).length := by rw [hobj]
    rw [List.length_take]
    omega

/-- A merged table with 502 object-prefixed columns (`object_id` plus 501
copies of a feature column name): the claim's truncation scenario. -/
def overfullColumnsExample : List String :=
  "sample_id" :: "object_id" :: List.replicate 501 "object_f"

set_option maxRecDepth 100000 in
theorem c2_object_column_truncation_witness :
    (overfullColumnsExample.filter (fun c => pyStartsWith c "object_")
        = "object_id" :: List.replicate 501 "object_f") ∧
    (501 < (overfullColumnsExample.filter (fun c => pyStartsWith c "object_")).length) ∧
    ((prepareColumns overfullColumnsExample).1.filter (fun c => pyStartsWith c "object_")
        = (overfullColumnsExample.filter (fun c => pyStartsWith c "object_")).take 501) ∧
    (prepareColumns overfullColumnsExample).2 = ["object"] := by
  have h := c2_object_column_truncation overfullColumnsExample
    (List.replicate 501 "object_f") (by decide)
    (fun f hf => by rw [List.eq_of_mem_replicate hf]; decide)
    (by decide) (by decide) (by decide) (by decide)
  exact ⟨by decide, by decide, h.1, h.2.2⟩

/-- What `_get_json_item` computes on a plain (no list-descent) path: the
value reached by straight key descent, with a reached JSON null collapsed to
Python `None`. -/
def plainResolve (d : Json) (parts : List String) : Option Json :=
  match lookupPath d parts with
  | some .null => none
  | some v => some v
  | none => none

theorem loopGo_cons_obj (f : Json → List String → Option Json) (full : List String)
    (kvs : List (String × Json)) (part : String) (rest : List String) :
    loopGo f full (.obj kvs) (part :: rest)
      = if pyEndsWith part "[]" then
          match lookupKV kvs (pyDropRight2 part) with
          | some (.arr items) =>
            let remaining := full.drop (full.indexOf part + 1)
            let values :=
              if String.intercalate "." remaining = "" then
                items.map pyStr
              else
                items.filterMap fun item => (f item remaining).map pyStr
            if values = [] then none else some (.str (String.intercalate " " values))
          | some _ => loopGo f full (.obj kvs) rest
          | none => none
        else
          match lookupKV kvs part with
          | some v => loopGo f full v rest
          | none => none := rfl

theorem loopGo_plain {f : Json → List String → Option Json} {full : List String}
    {parts : List String} (hplain : ∀ p ∈ parts, pyEndsWith p "[]" = false) :
    ∀ d : Json, loopGo f full d parts = plainResolve d parts := by
  induction parts with
  | nil =>
    intro d
    cases d <;> rfl
  | cons part rest ih =>
    intro d
    have hend : pyEndsWith part "[]" = false := hplain part (List.mem_cons_self part rest)
    have hplain' : ∀ p ∈ rest, pyEndsWith p "[]" = false := fun p hp =>
      hplain p (List.mem_cons_of_mem part hp)
    cases d with
    | null => rfl
    | obj kvs =>
      rw [loopGo_cons_obj, if_neg (by simp [hend])]
      cases hkv : lookupKV kvs part with
      | none => simp [plainResolve, lookupPath, hkv]
      | some v =>
        have hv := ih hplain' v
        simp only [plainResolve, lookupPath, hkv]
        simpa [plainResolve] using hv
    | bool b => simp [loopGo, hend, plainResolve, lookupPath]
    | num s => simp [loopGo, hend, plainResolve, lookupPath]
    | str s => simp [loopGo, hend, plainResolve, lookupPath]
    | arr xs => simp [loopGo, hend, plainResolve, lookupPath]

theorem loopGo_congr {f g : Json → List String → Option Json} {full : List String}
    (h : ∀ item rem, rem.length < full.length → f item rem = g item rem) :
    ∀ (parts : List String) (cur : Json), loopGo f full cur parts = loopGo g full cur parts := by
  intro parts
  induction parts with
  | nil => intro cur; cases cur <;> rfl
  | cons part rest ih =>
    intro cur
    cases cur with
    | null => rfl
    | obj kvs =>
      rw [loopGo_cons_obj, loopGo_cons_obj]
      by_cases hend : pyEndsWith part "[]" = true
      · rw [if_pos (by simp [hend]), if_pos (by simp [hend])]
        cases hkv : lookupKV kvs (pyDropRight2 part) with
        | none => rfl
        | some v =>
          cases v with
          | arr items =>
            by_cases hrem : String.intercalate "."
                (full.drop (full.indexOf part + 1)) = ""
            · simp only [hrem, if_pos]
            · have hlt : (full.drop (full.indexOf part + 1)).length < full.length := by
                have hne : full.drop (full.indexOf part + 1) ≠ [] := by
                  intro hnil
                  rw [hnil] at hrem
                  exact hrem rfl
                have := List.length_drop (full.indexOf part + 1) full
                have hpos : 0 < (full.drop (full.indexOf part + 1)).length :=
                  List.length_pos.mpr hne
                omega
              have hfun : (fun item => (f item (full.drop (full.indexOf part + 1))).map pyStr)
                  = fun item => (g item (full.drop (full.indexOf part + 1))).map pyStr := by
                funext item
                rw [h item _ hlt]
              simp only [hrem, if_neg, ite_false, hfun]
          | null => exact ih (.obj kvs)
          | bool b => exact ih (.obj kvs)
          | num s => exact ih (.obj kvs)
          | str s => exact ih (.obj kvs)
          | obj kvs2 => exact ih (.obj kvs)
      · rw [if_neg hend, if_neg hend]
        cases hkv : lookupKV kvs part with
        | none => rfl
        | some v => exact ih v
    | bool b => rfl
    | num s => rfl
    | str s => rfl
    | arr xs => rfl

/-- The fuel in `goItem` is irrelevant once it exceeds the path length: any
sufficient fuel computes `_get_json_item`. -/
theorem goItem_fuel_eq :
    ∀ (n : Nat) (parts : List String) (d : Json), parts.length ≤ n →
      goItem (n + 1) d parts = getJsonItemParts d parts := by
  intro n
  induction n using Nat.strong_induction_on with
  | _ n ih =>
    intro parts d hlen
    show loopGo (fun item rem => goItem n item rem) parts d parts
        = loopGo (fun item rem => goItem parts.length item rem) parts d parts
    apply loopGo_congr (fun item rem hrem => ?_) parts d
    have hn1 : 1 ≤ n := by omega
    have hp1 : 1 ≤ parts.length := by omega
    have e1 : goItem n item rem = getJsonItemParts item rem := by
      have := ih (n - 1) (by omega) rem item (by omega)
      rwa [show n - 1 + 1 = n by omega] at this
    have e2 : goItem parts.length item rem = getJsonItemParts item rem := by
      have := ih (parts.length - 1) (by omega) rem item (by omega)
      rwa [show parts.length - 1 + 1 = parts.length by omega] at this
    rw [e1, e2]

theorem lookupPath_nil (d : Json) : lookupPath d [] = some d := by cases d <;> rfl

theorem loopGo_descend (f : Json → List String → Option Json) (full : List String)
    {d cur : Json} {pre : List String} (tail : List String)
    (hplain : ∀ p ∈ pre, pyEndsWith p "[]" = false)
    (hdesc : lookupPath d pre = some cur) :
    loopGo f full d (pre ++ tail) = loopGo f full cur tail := by
  induction pre generalizing d with
  | nil =>
    rw [lookupPath_nil] at hdesc
    injection hdesc with hdesc
    rw [hdesc]
    rfl
  | cons p pre' ih =>
    have hend : pyEndsWith p "[]" = false := hplain p (List.mem_cons_self p pre')
    have hplain' : ∀ q ∈ pre', pyEndsWith q "[]" = false := fun q hq =>
      hplain q (List.mem_cons_of_mem p hq)
    cases d with
    | obj kvs =>
      unfold lookupPath at hdesc
      cases hkv : lookupKV kvs p with
      | none => rw [hkv] at hdesc; cases hdesc
      | some v =>
        rw [hkv] at hdesc
        rw [List.cons_append, loopGo_cons_obj, if_neg (by simp [hend]), hkv]
        exact ih hplain' hdesc
    | null => cases hdesc
    | bool b => cases hdesc
    | num s => cases hdesc
    | str s => cases hdesc
    | arr xs => cases hdesc

theorem indexOf_append_cons_self {part : String} {pre rest : List String}
    (h : part ∉ pre) : (pre ++ part :: rest).indexOf part = pre.length := by
  rw [show (pre ++ part :: rest).indexOf part = List.indexOf part (pre ++ part :: rest) from rfl]
  rw [List.indexOf_append_of_not_mem h]
  simp

theorem drop_append_cons_self {part : String} {pre rest : List String} :
    (pre ++ part :: rest).drop (pre.length + 1) = rest := by
  have h1 : pre ++ part :: rest = (pre ++ [part]) ++ rest := by simp
  have h2 : pre.length + 1 = (pre ++ [part]).length := by simp
  rw [h1, h2, List.drop_left]

/-- Claim C6 counterexample: on `D = {"a": 5, "b": 7}` and `P = "a[]"` no
value exists at `P` (`a` does not hold a list), yet `_get_json_item` returns
the whole dict: the non-list guard falls through the loop and the final
`current` is returned.  This falsifies "returns `None` iff no value exists at
`P`". -/
theorem c6_resolver_none_iff_counterexample :
    getJsonItem (Json.obj [("a", Json.num "5"), ("b", Json.num "7")]) "a[]"
        = some (Json.obj [("a", Json.num "5"), ("b", Json.num "7")]) ∧
    specValueExists (Json.obj [("a", Json.num "5"), ("b", Json.num "7")])
        (pySplit '.' "a[]") = false :=
  ⟨rfl, by decide⟩

/-- Claim C6 (amended): the resolver is a total function (it never raises),
and on every plain dotted path — no list-descent segment — it returns `None`
exactly when the keys do not descend to a value or descend to JSON null;
a list-descent segment naming a non-list value is skipped, so on such paths
the resolver may return a value from elsewhere (see the counterexample). -/
theorem c6_plain_path_none_iff (d : Json) (parts : List String)
    (hplain : ∀ p ∈ parts, pyEndsWith p "[]" = false) :
    (getJsonItemParts d parts = none ↔
      lookupPath d parts = none ∨ lookupPath d parts = some Json.null) ∧
    (∀ v, lookupPath d parts = some v → v ≠ Json.null →
      getJsonItemParts d parts = some v) := by
  have hchar : getJsonItemParts d parts = plainResolve d parts := loopGo_plain hplain d
  rw [hchar]
  constructor
  · cases hlp : lookupPath d parts with
    | none => simp [plainResolve, hlp]
    | some v =>
      cases v with
      | null => simp [plainResolve, hlp]
      | bool b => simp [plainResolve, hlp]
      | num s => simp [plainResolve, hlp]
      | str s => simp [plainResolve, hlp]
      | arr xs => simp [plainResolve, hlp]
      | obj kvs => simp [plainResolve, hlp]
  · intro v hlp hv
    cases v with
    | null => exact absurd rfl hv
    | bool b => simp [plainResolve, hlp]
    | num s => simp [plainResolve, hlp]
    | str s => simp [plainResolve, hlp]
    | arr xs => simp [plainResolve, hlp]
    | obj kvs => simp [plainResolve, hlp]

theorem c6_plain_path_none_iff_witness :
    (∀ p ∈ ["user", "name"], pyEndsWith p "[]" = false) ∧
    ((getJsonItemParts (Json.obj [("user", Json.obj [("name", Json.str "John")])])
          ["user", "name"] = none ↔
        lookupPath (Json.obj [("user", Json.obj [("name", Json.str "John")])])
            ["user", "name"] = none ∨
          lookupPath (Json.obj [("user", Json.obj [("name", Json.str "John")])])
            ["user", "name"] = some Json.null) ∧
      (∀ v, lookupPath (Json.obj [("user", Json.obj [("name", Json.str "John")])])
          ["user", "name"] = some v → v ≠ Json.null →
        getJsonItemParts (Json.obj [("user", Json.obj [("name", Json.str "John")])])
          ["user", "name"] = some v)) :=
  ⟨by decide, c6_plain_path_none_iff _ ["user", "name"] (by decide)⟩

/-- The document of the C7 counterexample: the segment string `x[]` occurs
both at the top level (where `x` holds the non-list `5`) and as the last
segment (where `x` holds the list `[1, 2]`). -/
def docC7 : Json :=
  .obj [("x", .num "5"), ("p", .obj [("x", .arr [.num "1", .num "2"])])]

/-- Claim C7 counterexample: on `D = {"x": 5, "p": {"x": [1, 2]}}` and
`P = "x[].p.x[]"`, the final segment is a list-descent reaching the list
`[1, 2]` with no remaining path, so the claim requires the space-join
`"1 2"` (as resolving that segment at the reached node shows); but
`path_parts.index("x[]")` finds the first occurrence — skipped earlier over
the non-list `5` — so the code fans out with the wrong remainder `"p.x[]"`
and returns `None`. -/
theorem c7_list_fanout_counterexample :
    getJsonItem docC7 "x[].p.x[]" = none ∧
    pySplit '.' "x[].p.x[]" = ["x[]", "p", "x[]"] ∧
    lookupPath docC7 ["p"] = some (Json.obj [("x", Json.arr [Json.num "1", Json.num "2"])]) ∧
    getJsonItem (Json.obj [("x", Json.arr [Json.num "1", Json.num "2"])]) "x[]"
        = some (Json.str "1 2") :=
  ⟨rfl, by decide, rfl, rfl⟩

/-- Claim C7 (amended): when resolution reaches a list-descent segment (here:
through plain key segments) and that segment's string does not occur earlier
in the path, then with further segments remaining the resolver resolves the
remainder against every list element in order and space-joins the non-null
stringified results (`None` when there are none), and with no remaining path
it space-joins the stringified elements (`None` for an empty list).  When an
identical segment string occurs earlier (necessarily skipped over a
non-list), the remainder is taken from that first occurrence instead and the
result can differ (see the counterexample). -/
theorem c7_list_fanout_amended (d : Json) (pre : List String) (part : String)
    (rest : List String) (kvs : List (String × Json)) (items : List Json)
    (hplain : ∀ p ∈ pre, pyEndsWith p "[]" = false)
    (hend : pyEndsWith part "[]" = true)
    (hnotin : part ∉ pre)
    (hdesc : lookupPath d pre = some (.obj kvs))
    (hkv : lookupKV kvs (pyDropRight2 part) = some (.arr items)) :
    (String.intercalate "." rest ≠ "" →
      getJsonItemParts d (pre ++ part :: rest)
        = (if (items.filterMap fun item => (getJsonItemParts item rest).map pyStr) = []
           then none
           else some (.str (String.intercalate " "
             (items.filterMap fun item => (getJsonItemParts item rest).map pyStr))))) ∧
    (String.intercalate "." rest = "" →
      getJsonItemParts d (pre ++ part :: rest)
        = (if (items.map pyStr) = [] then none
           else some (.str (String.intercalate " " (items.map pyStr))))) := by
  have hstep : getJsonItemParts d (pre ++ part :: rest)
      = loopGo (fun item rem => goItem (pre ++ part :: rest).length item rem)
          (pre ++ part :: rest) (.obj kvs) (part :: rest) :=
    loopGo_descend _ (pre ++ part :: rest) (part :: rest) hplain hdesc
  have hidx : (pre ++ part :: rest).indexOf part = pre.length :=
    indexOf_append_cons_self hnotin
  have hdrop : (pre ++ part :: rest).drop (pre.length + 1) = rest :=
    drop_append_cons_self
  have hfuel : ∀ item, goItem (pre ++ part :: rest).length item rest
      = getJsonItemParts item rest := by
    intro item
    have hlen : (pre ++ part :: rest).length = pre.length + rest.length + 1 := by
      simp
      omega
    have h1 : rest.length ≤ (pre ++ part :: rest).length - 1 := by omega
    have h := goItem_fuel_eq ((pre ++ part :: rest).length - 1) rest item h1
    rwa [show (pre ++ part :: rest).length - 1 + 1 = (pre ++ part :: rest).length by
      omega] at h
  rw [hstep, loopGo_cons_obj, if_pos (by simp [hend]), hkv]
  simp only [hidx, hdrop]
  constructor
  · intro hrem
    rw [if_neg hrem]
    simp only [hfuel]
  · intro hrem
    rw [if_pos hrem]

/-- The docstring example of `_get_json_item`:
`{"items": [{"id": 1}, {"id": 2}, {"id": 3}]}`. -/
def docItems : Json :=
  .obj [("items", .arr [.obj [("id", .num "1")], .obj [("id", .num "2")],
    .obj [("id", .num "3")]])]

theorem c7_list_fanout_amended_witness :
    getJsonItemParts docItems ["items[]", "id"] = some (Json.str "1 2 3") ∧
    String.intercalate "." ["id"] ≠ "" := by
  constructor
  · have h := (c7_list_fanout_amended docItems [] "items[]" ["id"]
      [("items", .arr [.obj [("id", .num "1")], .obj [("id", .num "2")],
        .obj [("id", .num "3")]])]
      [.obj [("id", .num "1")], .obj [("id", .num "2")], .obj [("id", .num "3")]]
      (by simp) (by decide) (by simp) rfl rfl).1 (by decide)
    rw [List.nil_append] at h
    rw [h]
    rfl
  · decide

end Cytoprocess









